import Mathlib

/-!
Shallow embedding of the AgamemnonProofreader repository.

Modelled source: `src/googledocscomment.py` (edit classification, literal
leftmost phrase search, flat-to-native offset translation, Docs API request
building, the revision-conflict retry loop, and `get_doc_id`) and
`src/test.py` (`convert_to_docs_format`).

Strings are modelled as `List Char`; Google Docs native indices and
flat-string offsets as `Nat` (the Python ints involved are non-negative).
-/

/-- One text run from the fetched document body: its text and the native
start/end indices reported by the Docs API.  Built by
`get_text_and_index_map` as the entries of `flat_text_with_indices`. -/
structure TextRun where
  text : List Char
  startIndex : Nat
  endIndex : Nat

/-- One proofreading edit as consumed by `create_batch_requests`:
the dict with keys `original`, `corrected`, `reason`. -/
structure Edit where
  original : List Char
  corrected : List Char
  reason : List Char
deriving DecidableEq

/-- The action type chosen by the if/elif chain at the top of the per-edit
loop of `create_batch_requests`; `Malformed` is the final `else: continue`
branch (both trimmed fields empty). -/
inductive ActionType where
  | Replacement
  | Deletion
  | Insertion
  | Malformed
deriving DecidableEq

/-- A Docs API batchUpdate request as built by `create_batch_requests`:
either a `deleteContentRange` over a native range or an `insertText` at a
native index, each tagged with its suggestion id. -/
inductive DocsRequest where
  | deleteContentRange (startIndex endIndex : Nat) (suggestionId : String)
  | insertText (index : Nat) (text : List Char) (suggestionId : String)
deriving DecidableEq

/-- The ASCII whitespace characters stripped by Python `str.strip()`. -/
def isSpaceChar (ch : Char) : Bool :=
  ch == ' ' || ch == '\t' || ch == '\n' || ch == '\r' || ch == '\x0b' || ch == '\x0c'

/-- Python `s.strip()`: drop leading and trailing whitespace. -/
def trimChars (s : List Char) : List Char :=
  ((s.dropWhile isSpaceChar).reverse.dropWhile isSpaceChar).reverse

/-- Literal character-by-character comparison: does `needle` occur as a
prefix of `hay`?  This is the primitive of the regex-escaped (hence
literal) substring search `re.search(re.escape(search_term), text)`. -/
def matchesAt : List Char → List Char → Bool
  | [], _ => true
  | _ :: _, [] => false
  | a :: n, b :: h => a == b && matchesAt n h

/-- Index of the leftmost occurrence of `needle` in `hay`, embedding
`re.search(re.escape(search_term), searchable_text).start()`;
`none` when the phrase does not occur. -/
def strFind (needle : List Char) : List Char → Option Nat
  | [] => if matchesAt needle [] then some 0 else none
  | b :: h => if matchesAt needle (b :: h) then some 0 else (strFind needle h).map (· + 1)

/-- The if/elif chain of `create_batch_requests` classifying an edit from
the non-emptiness (Python truthiness) of its trimmed fields. -/
def classify (o c : List Char) : ActionType :=
  if o ≠ [] ∧ c ≠ [] then ActionType.Replacement
  else if o ≠ [] ∧ c = [] then ActionType.Deletion
  else if o = [] ∧ c ≠ [] then ActionType.Insertion
  else ActionType.Malformed

/-- The `search_term` chosen by the same if/elif chain: the trimmed
original for Replacement/Deletion, the trimmed corrected for Insertion. -/
def searchTermOf : ActionType → List Char → List Char → List Char
  | ActionType.Insertion, _, c => c
  | _, o, _ => o

/-- Length of a run's text (`len(item['text'])`). -/
def runLen (r : TextRun) : Nat := r.text.length

/-- Cumulative flat offset at the start of run `i`: the sum of the text
lengths of the runs before it (the value of `current_flat_pos` when the
translation loop reaches run `i`). -/
def cumAt (runs : List TextRun) (i : Nat) : Nat :=
  ((runs.take i).map runLen).sum

/-- The start-endpoint update of one iteration of the translation loop:
`if api_start_index == -1 and flat_start >= current_flat_pos and
flat_start < current_flat_pos + text_len`. -/
def stepStart (fs : Nat) (item : TextRun) (cur : Nat) (s : Option Nat) : Option Nat :=
  if s = none ∧ cur ≤ fs ∧ fs < cur + item.text.length
  then some (item.startIndex + (fs - cur)) else s

/-- The end-endpoint update of one iteration of the translation loop:
`if api_end_index == -1 and flat_end > current_flat_pos and
flat_end <= current_flat_pos + text_len`. -/
def stepEnd (fe : Nat) (item : TextRun) (cur : Nat) (e : Option Nat) : Option Nat :=
  if e = none ∧ cur < fe ∧ fe ≤ cur + item.text.length
  then some (item.startIndex + (fe - cur)) else e

/-- The index-translation loop of `create_batch_requests`: walk the runs
keeping `current_flat_pos`, record the native start for the first run whose
flat interval `[cur, cur+len)` contains `flat_start`, record the native end
for the first run with `cur < flat_end ≤ cur+len`, and break once both are
found.  `none` plays the role of the `-1` sentinel. -/
def translateAux (fs fe : Nat) : List TextRun → Nat → Option Nat → Option Nat → Option Nat × Option Nat
  | [], _, s, e => (s, e)
  | item :: rest, cur, s, e =>
    let s2 := stepStart fs item cur s
    let e2 := stepEnd fe item cur e
    if s2.isSome ∧ e2.isSome then (s2, e2)
    else translateAux fs fe rest (cur + item.text.length) s2 e2

/-- Offset translation of a flat span into a native range, including the
final guard `api_start_index == -1 or api_end_index == -1 or
api_start_index >= api_end_index` which marks the edit unmatched. -/
def translateSpan (runs : List TextRun) (fs fe : Nat) : Option (Nat × Nat) :=
  match translateAux fs fe runs 0 none none with
  | (some s, some e) => if s < e then some (s, e) else none
  | _ => none

/-- `f"suggestion-{i}"`. -/
def suggestionId (i : Nat) : String := "suggestion-" ++ toString i

/-- The request-building tail of the per-edit loop: Deletion/Replacement
emit a `deleteContentRange` followed by an `insertText` of the trimmed
corrected text when it is non-empty; Insertion emits a single
`insertText` at the translated start. -/
def buildRequests (a : ActionType) (c : List Char) (s e : Nat) (sid : String) : List DocsRequest :=
  match a with
  | ActionType.Replacement =>
      DocsRequest.deleteContentRange s e sid ::
        (if c.isEmpty then [] else [DocsRequest.insertText s c sid])
  | ActionType.Deletion =>
      DocsRequest.deleteContentRange s e sid ::
        (if c.isEmpty then [] else [DocsRequest.insertText s c sid])
  | ActionType.Insertion => [DocsRequest.insertText s c sid]
  | ActionType.Malformed => []

/-- One iteration of the per-edit loop of `create_batch_requests`: returns
the requests it appends, the unmatched edits it appends, and the amount it
adds to `applied_count`. -/
def processEdit (searchable : List Char) (runs : List TextRun) (i : Nat) (edit : Edit) :
    List DocsRequest × List Edit × Nat :=
  let o := trimChars edit.original
  let c := trimChars edit.corrected
  match classify o c with
  | ActionType.Malformed => ([], [], 0)
  | a =>
    let term := searchTermOf a o c
    match strFind term searchable with
    | none => ([], [edit], 0)
    | some pos =>
      match translateSpan runs pos (pos + term.length) with
      | none => ([], [edit], 0)
      | some (s, e) => (buildRequests a c s e (suggestionId i), [], 1)

/-- The edit loop of `create_batch_requests`, processing edits in order
with their enumeration index and concatenating the per-edit results. -/
def cbrAux (searchable : List Char) (runs : List TextRun) : List Edit → Nat → List DocsRequest × List Edit × Nat
  | [], _ => ([], [], 0)
  | edit :: rest, i =>
    let r := processEdit searchable runs i edit
    let rs := cbrAux searchable runs rest (i + 1)
    (r.1 ++ rs.1, r.2.1 ++ rs.2.1, r.2.2 + rs.2.2)

/-- `create_batch_requests(edits, searchable_text, flat_text_with_indices, _)`:
returns `(all_requests, unmatched_edits, applied_count)`. -/
def create_batch_requests (edits : List Edit) (searchable : List Char) (runs : List TextRun) :
    List DocsRequest × List Edit × Nat :=
  cbrAux searchable runs edits 0

/-- The native start index a request targets. -/
def requestStart : DocsRequest → Nat
  | DocsRequest.deleteContentRange s _ _ => s
  | DocsRequest.insertText i _ _ => i

/-- Effect of one Docs API request on the document text when requests are
applied sequentially (the API applies the requests of a batch in order
against the mutating document, without re-basing indices). -/
def applyRequest (doc : List Char) : DocsRequest → List Char
  | DocsRequest.deleteContentRange s e _ => doc.take s ++ doc.drop e
  | DocsRequest.insertText i t _ => doc.take i ++ t ++ doc.drop i

/-- Sequential application of a request list to a document text. -/
def applyAll (doc : List Char) (reqs : List DocsRequest) : List Char :=
  reqs.foldl applyRequest doc

/-- Outcome of submitting one attempt's batches through the Docs API:
either all chunks succeed, or some chunk hits the
`"Cannot write to revision"` HttpError. -/
inductive SubmitOutcome where
  | ok
  | revisionConflict
deriving DecidableEq

/-- How the `for retry_attempt in range(MAX_RETRIES)` loop ends.  Each
iteration either breaks out normally (all chunks succeeded, or there were
no requests left) or is terminated by the `RuntimeError("REVISION_CONFLICT")`
raised from the chunk loop, which propagates out of the `for` loop. -/
inductive RunEnd where
  | noRequestsBreak (attempts : Nat)
  | successBreak (attempts : Nat)
  | conflictRaised (retryAttempt : Nat) (attempts : Nat)
  | rangeExhausted (attempts : Nat)
deriving DecidableEq

/-- `MAX_RETRIES = 5`. -/
def MAX_RETRIES : Nat := 5

/-- `CHUNK_SIZE = 10`. -/
def CHUNK_SIZE : Nat := 10

/-- The body of the retry loop, abstracted over the per-attempt submission
outcome and over whether any requests remain (`if not all_requests: break`).
A conflicting chunk re-fetches the snapshot and then raises, ending the
whole loop; a fully successful attempt breaks.  `fuel` counts the
iterations left in `range(MAX_RETRIES)`; `attempt` is `retry_attempt`. -/
def retryLoopAux (outcome : Nat → SubmitOutcome) (hasRequests : Bool) :
    Nat → Nat → RunEnd
  | 0, attempt => RunEnd.rangeExhausted attempt
  | _ + 1, attempt =>
    if hasRequests then
      match outcome attempt with
      | SubmitOutcome.ok => RunEnd.successBreak (attempt + 1)
      | SubmitOutcome.revisionConflict => RunEnd.conflictRaised attempt (attempt + 1)
    else RunEnd.noRequestsBreak (attempt + 1)

/-- The `for retry_attempt in range(MAX_RETRIES)` loop itself. -/
def retryLoop (outcome : Nat → SubmitOutcome) (hasRequests : Bool) : RunEnd :=
  retryLoopAux outcome hasRequests MAX_RETRIES 0

/-- What the run finally reports: the success path after the loop, or the
`except RuntimeError` handler (sitting outside the loop), which prints the
"Retrying application..." info message when `retry_attempt + 1 < MAX_RETRIES`
and the persistent-conflict failure message otherwise. -/
inductive FinalMessage where
  | successReport
  | retryingInfo
  | persistentConflictError
deriving DecidableEq

/-- Final report of the run together with the number of attempts actually
performed, as a function of the per-attempt submission outcomes. -/
def runReport (outcome : Nat → SubmitOutcome) (hasRequests : Bool) : FinalMessage × Nat :=
  match retryLoop outcome hasRequests with
  | RunEnd.noRequestsBreak n => (FinalMessage.successReport, n)
  | RunEnd.successBreak n => (FinalMessage.successReport, n)
  | RunEnd.rangeExhausted n => (FinalMessage.successReport, n)
  | RunEnd.conflictRaised a n =>
      (if a + 1 < MAX_RETRIES then FinalMessage.retryingInfo else FinalMessage.persistentConflictError, n)

/-- An edit as emitted by the proofreader model in `test.py`: a dict whose
keys `operation`, `original`, `corrected`, `reason` may each be absent
(`edit.get(key, default)`). -/
structure ProofEdit where
  operation : Option String
  original : Option String
  corrected : Option String
  reason : Option String

/-- An output record of `convert_to_docs_format`: exactly the keys
`original`, `corrected`, `reason`. -/
structure DocsEdit where
  original : List Char
  corrected : List Char
  reason : String
deriving DecidableEq

/-- Python `s.lower()` on the ASCII strings compared here. -/
def strLower (s : String) : String := String.mk (s.data.map Char.toLower)

/-- The loop body of `convert_to_docs_format` in `test.py`. -/
def convertOne (e : ProofEdit) : DocsEdit :=
  let op := strLower (e.operation.getD "replace")
  let o := trimChars (e.original.getD "").data
  let c := trimChars (e.corrected.getD "").data
  let r := e.reason.getD "Stylistic correction"
  if op = "remove" then { original := o, corrected := [], reason := r }
  else if op = "add" then { original := [], corrected := c, reason := r }
  else { original := o, corrected := c, reason := r }

/-- `convert_to_docs_format(proofreader_edits)` from `test.py`. -/
def convert_to_docs_format (edits : List ProofEdit) : List DocsEdit :=
  edits.map convertOne

/-- The character class `[a-zA-Z0-9-_]` of the doc-id regex. -/
def docIdChar (ch : Char) : Bool :=
  ('a' ≤ ch && ch ≤ 'z') || ('A' ≤ ch && ch ≤ 'Z') || ('0' ≤ ch && ch ≤ '9') || ch == '-' || ch == '_'

/-- Does the pattern `/d/([a-zA-Z0-9-_]+)` match at the head of a string:
the first three characters are `/`, `d`, `/` and the fourth is a class
character. -/
def dHeadMatch : List Char → Bool
  | a :: b :: c :: d :: _ => a == '/' && b == 'd' && c == '/' && docIdChar d
  | _ => false

/-- Does the pattern `/d/([a-zA-Z0-9-_]+)` match at position `i` of `s`,
i.e. is `s.drop i` of the form `/d/` followed by at least one character of
the class? -/
def dMatchAt (s : List Char) (i : Nat) : Bool :=
  dHeadMatch (s.drop i)

/-- `get_doc_id(url)`: `re.search(r'/d/([a-zA-Z0-9-_]+)', url)` returns the
first capture group of the leftmost match, or `None`.  The scan tries each
position left to right; at a matching position the greedy `+` captures the
maximal run of class characters after `/d/`. -/
def get_doc_id : List Char → Option (List Char)
  | [] => none
  | ch :: t =>
    if dMatchAt (ch :: t) 0 then some (((ch :: t).drop 3).takeWhile docIdChar)
    else get_doc_id t

/-- Example runs of spec property P3: `["Hello ", "World"]` with native
starts `[10, 16]`. -/
def exRuns : List TextRun := [⟨("Hello ").data, 10, 16⟩, ⟨("World").data, 16, 21⟩]

/-- Document for the C2 failing input: one run `"aa bb"` whose native
indices coincide with the flat offsets. -/
def exRunsC2 : List TextRun := [⟨("aa bb").data, 0, 5⟩]

/-- The C2 failing input: two edits whose leftmost matches sit at
ascending flat positions (0 and 3). -/
def exEditsC2 : List Edit := [⟨("aa").data, ("X").data, []⟩, ⟨("bb").data, ("Y").data, []⟩]

/-- The operations of the C2 failing input reordered as the claim demands:
edits applied in strictly descending order of native start index. -/
def exDescendingC2 : List DocsRequest :=
  [DocsRequest.deleteContentRange 3 5 (suggestionId 1),
   DocsRequest.insertText 3 ("Y").data (suggestionId 1),
   DocsRequest.deleteContentRange 0 2 (suggestionId 0),
   DocsRequest.insertText 0 ("X").data (suggestionId 0)]

/-- Document for the spec's P6 example: one run `"I like cats"` with
native indices equal to flat offsets. -/
def exRunsP6 : List TextRun := [⟨("I like cats").data, 0, 11⟩]

/-- The P6 edits `[{cat ↦ dog}, {cats ↦ dogs}]`. -/
def exEditsP6 : List Edit := [⟨("cat").data, ("dog").data, []⟩, ⟨("cats").data, ("dogs").data, []⟩]

/-- An edit whose search phrase occurs in the text but whose flat span
cannot be located in an empty run list (translation failure). -/
def exEditC4 : Edit := ⟨("ab").data, ("cd").data, []⟩

/-- An edit whose original field carries leading whitespace. -/
def exEditC5 : Edit := ⟨(" cat").data, ("dog").data, []⟩

/-- Document and edit of spec property P7 (`"The qwik fox"`, `qwik ↦
quick`), with native indices shifted by 1 as in a real Docs body. -/
def exRunsC6 : List TextRun := [⟨("The qwik fox").data, 1, 13⟩]

/-- The P7 replacement edit. -/
def exEditC6 : Edit := ⟨("qwik").data, ("quick").data, ("spelling").data⟩

/-- A deletion edit for the C6 witness. -/
def exEditC6del : Edit := ⟨("qwik fox").data, [], []⟩

/-- An insertion edit anchored at its corrected text, for the C6 witness. -/
def exEditC6ins : Edit := ⟨[], ("fox").data, []⟩

/-- A malformed edit: both fields whitespace-only. -/
def exEditC7 : Edit := ⟨("  ").data, [], ("r").data⟩

/-- An edit whose phrase occurs nowhere in the searched text. -/
def exEditC8 : Edit := ⟨("zz").data, ("ww").data, []⟩

/-- A proofreader edit whose operation key is `"Remove"` (capitalised). -/
def exProofEditCap : ProofEdit := ⟨some "Remove", some "y", some "x", some "r"⟩

/-- A proofreader edit with operation `"remove"` and padded fields. -/
def exProofEditRm : ProofEdit := ⟨some "remove", some " a ", some "b", none⟩

/-- A URL containing a document id. -/
def exUrl : List Char := ("a/d/xyz_1-2/edit").data

theorem cumAt_zero (runs : List TextRun) : cumAt runs 0 = 0 := rfl

theorem cumAt_succ_cons (r : TextRun) (rest : List TextRun) (i : Nat) :
    cumAt (r :: rest) (i + 1) = runLen r + cumAt rest i := by
  simp [cumAt]

theorem stepStart_already (fs : Nat) (item : TextRun) (cur a : Nat) :
    stepStart fs item cur (some a) = some a := by
  simp [stepStart]

theorem stepEnd_already (fe : Nat) (item : TextRun) (cur a : Nat) :
    stepEnd fe item cur (some a) = some a := by
  simp [stepEnd]

theorem stepStart_hit (fs : Nat) (item : TextRun) (cur : Nat)
    (h1 : cur ≤ fs) (h2 : fs < cur + item.text.length) :
    stepStart fs item cur none = some (item.startIndex + (fs - cur)) := by
  simp [stepStart, h1, h2]

theorem stepEnd_hit (fe : Nat) (item : TextRun) (cur : Nat)
    (h1 : cur < fe) (h2 : fe ≤ cur + item.text.length) :
    stepEnd fe item cur none = some (item.startIndex + (fe - cur)) := by
  simp [stepEnd, h1, h2]

theorem stepStart_miss (fs : Nat) (item : TextRun) (cur : Nat)
    (h : cur + item.text.length ≤ fs) :
    stepStart fs item cur none = none := by
  simp only [stepStart]
  rw [if_neg]
  intro hcon
  omega

theorem stepEnd_miss (fe : Nat) (item : TextRun) (cur : Nat)
    (h : cur + item.text.length < fe) :
    stepEnd fe item cur none = none := by
  simp only [stepEnd]
  rw [if_neg]
  intro hcon
  omega

/-- Once the start endpoint has been found, the loop locates the end
endpoint in the (unique) run whose half-open-from-the-left flat interval
`(cum, cum + len]` contains `flat_end`. -/
theorem translateAux_end_spec (fs fe a : Nat) (runs : List TextRun) :
    ∀ (cur j : Nat) (hj : j < runs.length),
      cur + cumAt runs j < fe →
      fe ≤ cur + cumAt runs j + runLen (runs.get ⟨j, hj⟩) →
      translateAux fs fe runs cur (some a) none =
        (some a, some ((runs.get ⟨j, hj⟩).startIndex + (fe - (cur + cumAt runs j)))) := by
  induction runs with
  | nil =>
    intro cur j hj
    simp at hj
  | cons r rest ih =>
    intro cur j hj h1 h2
    cases j with
    | zero =>
      rw [cumAt_zero] at h1 h2
      simp only [List.get] at h2 ⊢
      simp only [translateAux, stepStart_already]
      rw [stepEnd_hit fe r cur (by omega) (by simp only [runLen] at h2; omega)]
      rw [if_pos (by simp)]
      simp [cumAt_zero]
    | succ k =>
      rw [cumAt_succ_cons] at h1 h2
      simp only [List.get] at h2 ⊢
      have hk : k < rest.length := by simpa using hj
      simp only [translateAux, stepStart_already]
      rw [stepEnd_miss fe r cur (by simp only [runLen] at h1; omega)]
      rw [if_neg (by simp)]
      rw [ih (cur + r.text.length) k hk (by simp only [runLen] at h1 ⊢; omega)
        (by simp only [runLen] at h2 ⊢; omega)]
      have harith : cur + r.text.length + cumAt rest k = cur + (runLen r + cumAt rest k) := by
        simp only [runLen]
        omega
      rw [harith, cumAt_succ_cons]

/-- The translation loop, started with both sentinels unset, locates the
start endpoint in the run whose flat interval `[cum, cum + len)` contains
`flat_start` and the end endpoint in the run whose interval
`(cum, cum + len]` contains `flat_end`, and returns for each the run's
native `startIndex` plus the offset of the flat position inside the run. -/
theorem translateAux_spec (fs fe : Nat) (hfs : fs < fe) (runs : List TextRun) :
    ∀ (cur i j : Nat) (hi : i < runs.length) (hj : j < runs.length),
      cur + cumAt runs i ≤ fs →
      fs < cur + cumAt runs i + runLen (runs.get ⟨i, hi⟩) →
      cur + cumAt runs j < fe →
      fe ≤ cur + cumAt runs j + runLen (runs.get ⟨j, hj⟩) →
      translateAux fs fe runs cur none none =
        (some ((runs.get ⟨i, hi⟩).startIndex + (fs - (cur + cumAt runs i))),
         some ((runs.get ⟨j, hj⟩).startIndex + (fe - (cur + cumAt runs j)))) := by
  induction runs with
  | nil =>
    intro cur i j hi
    simp at hi
  | cons r rest ih =>
    intro cur i j hi hj hs1 hs2 he1 he2
    cases i with
    | zero =>
      rw [cumAt_zero] at hs1 hs2
      simp only [List.get] at hs2 ⊢
      cases j with
      | zero =>
        rw [cumAt_zero] at he1 he2
        simp only [List.get] at he2 ⊢
        simp only [translateAux]
        rw [stepStart_hit fs r cur (by omega) (by simp only [runLen] at hs2; omega)]
        rw [stepEnd_hit fe r cur (by omega) (by simp only [runLen] at he2; omega)]
        rw [if_pos (by simp)]
        simp [cumAt_zero]
      | succ k =>
        rw [cumAt_succ_cons] at he1 he2
        simp only [List.get] at he2 ⊢
        have hk : k < rest.length := by simpa using hj
        simp only [translateAux]
        rw [stepStart_hit fs r cur (by omega) (by simp only [runLen] at hs2; omega)]
        rw [stepEnd_miss fe r cur (by simp only [runLen] at he1; omega)]
        rw [if_neg (by simp)]
        rw [translateAux_end_spec fs fe (r.startIndex + (fs - cur)) rest
          (cur + r.text.length) k hk (by simp only [runLen] at he1 ⊢; omega)
          (by simp only [runLen] at he2 ⊢; omega)]
        have harith : cur + r.text.length + cumAt rest k = cur + (runLen r + cumAt rest k) := by
          simp only [runLen]
          omega
        rw [harith, cumAt_succ_cons]
        simp [cumAt_zero]
    | succ m =>
      rw [cumAt_succ_cons] at hs1 hs2
      simp only [List.get] at hs2 ⊢
      have hm : m < rest.length := by simpa using hi
      cases j with
      | zero =>
        rw [cumAt_zero] at he1 he2
        simp only [List.get] at he2
        exfalso
        simp only [runLen] at hs1 he2
        omega
      | succ k =>
        rw [cumAt_succ_cons] at he1 he2
        simp only [List.get] at he2 ⊢
        have hk : k < rest.length := by simpa using hj
        simp only [translateAux]
        rw [stepStart_miss fs r cur (by simp only [runLen] at hs1; omega)]
        rw [stepEnd_miss fe r cur (by simp only [runLen] at he1; omega)]
        rw [if_neg (by simp)]
        rw [ih (cur + r.text.length) m k hm hk
          (by simp only [runLen] at hs1 ⊢; omega)
          (by simp only [runLen] at hs2 ⊢; omega)
          (by simp only [runLen] at he1 ⊢; omega)
          (by simp only [runLen] at he2 ⊢; omega)]
        have ha1 : cur + r.text.length + cumAt rest m = cur + (runLen r + cumAt rest m) := by
          simp only [runLen]
          omega
        have ha2 : cur + r.text.length + cumAt rest k = cur + (runLen r + cumAt rest k) := by
          simp only [runLen]
          omega
        rw [ha1, ha2, cumAt_succ_cons, cumAt_succ_cons]

/-- C1: for a MatchSpan `[fs, fe)` over a run list, the Offset Translator
returns the native range whose start is the start-owning run's
`startIndex` plus `fs` minus the cumulative flat offset at that run, and
symmetrically for `fe`, with a boundary `fe` (hypothesis `cumAt < fe ≤
cumAt + len`, the half-open convention) mapping to the earlier run's end;
the P3 instance (runs `["Hello ", "World"]`, native starts `[10, 16]`,
span `[4, 9)` ↦ `(14, 19)`) is the witness below. -/
theorem C1_offset_translation (runs : List TextRun) (fs fe i j : Nat)
    (hi : i < runs.length) (hj : j < runs.length) (hfs : fs < fe)
    (hs1 : cumAt runs i ≤ fs) (hs2 : fs < cumAt runs i + runLen (runs.get ⟨i, hi⟩))
    (he1 : cumAt runs j < fe) (he2 : fe ≤ cumAt runs j + runLen (runs.get ⟨j, hj⟩))
    (hlt : (runs.get ⟨i, hi⟩).startIndex + (fs - cumAt runs i) <
           (runs.get ⟨j, hj⟩).startIndex + (fe - cumAt runs j)) :
    translateSpan runs fs fe =
      some ((runs.get ⟨i, hi⟩).startIndex + (fs - cumAt runs i),
            (runs.get ⟨j, hj⟩).startIndex + (fe - cumAt runs j)) := by
  have h := translateAux_spec fs fe hfs runs 0 i j hi hj
    (by simpa using hs1) (by simpa using hs2) (by simpa using he1) (by simpa using he2)
  simp only [Nat.zero_add] at h
  unfold translateSpan
  rw [h]
  simp only [List.get_eq_getElem] at hlt
  simp [hlt]

/-- C1 witness: spec property P3, a span straddling the run boundary. -/
theorem C1_offset_translation_witness : translateSpan exRuns 4 9 = some (14, 19) := by
  rw [C1_offset_translation exRuns 4 9 0 1 (by decide) (by decide) (by decide)
    (by decide) (by decide) (by decide) (by decide) (by decide)]
  decide

/-- C2: the claim says operations submitted as independent sequential
requests are applied strictly in descending order of native start index.
The code never reorders: `create_batch_requests` emits operations in input
edit order with indices computed against one snapshot, here the ascending
start sequence `[0, 0, 3, 3]`, and sequential application corrupts the
text (`"X bY"` instead of `"X Y"`), while the claim's mandated descending
order would give `"X Y"`.  The claim's own P6 example happens to end in
`"I like dogs"` only because both edits there share start index 7. -/
theorem C2_requests_not_descending :
    (create_batch_requests exEditsC2 ("aa bb").data exRunsC2).1 =
      [DocsRequest.deleteContentRange 0 2 (suggestionId 0),
       DocsRequest.insertText 0 ("X").data (suggestionId 0),
       DocsRequest.deleteContentRange 3 5 (suggestionId 1),
       DocsRequest.insertText 3 ("Y").data (suggestionId 1)] ∧
    ((create_batch_requests exEditsC2 ("aa bb").data exRunsC2).1.map requestStart = [0, 0, 3, 3]) ∧
    ¬ List.Sorted (fun x y => x ≥ y)
        ((create_batch_requests exEditsC2 ("aa bb").data exRunsC2).1.map requestStart) ∧
    applyAll ("aa bb").data (create_batch_requests exEditsC2 ("aa bb").data exRunsC2).1 = ("X bY").data ∧
    ("X bY").data ≠ ("X Y").data ∧
    applyAll ("aa bb").data exDescendingC2 = ("X Y").data ∧
    applyAll ("I like cats").data (create_batch_requests exEditsP6 ("I like cats").data exRunsP6).1 =
      ("I like dogs").data := by
  decide

/-- C3: the claim says that under a RevisionConflict on every attempt the
run performs up to MAX_RETRIES attempts and then terminates with the
partial-failure report.  In the code the `RuntimeError("REVISION_CONFLICT")`
raised on the first conflicting chunk propagates out of the
`for retry_attempt in range(MAX_RETRIES)` loop to the handler outside it,
so exactly one attempt is performed and the run ends with the
"Retrying application..." info message; the persistent-conflict failure
branch (`retry_attempt + 1 >= MAX_RETRIES`) is unreachable. -/
theorem C3_conflict_aborts_after_one_attempt :
    runReport (fun _ => SubmitOutcome.revisionConflict) true = (FinalMessage.retryingInfo, 1) ∧
    FinalMessage.retryingInfo ≠ FinalMessage.persistentConflictError ∧
    (1 : Nat) ≠ MAX_RETRIES := by
  decide

theorem translateSpan_some_lt (runs : List TextRun) (fs fe s e : Nat)
    (h : translateSpan runs fs fe = some (s, e)) : s < e := by
  unfold translateSpan at h
  rcases haux : translateAux fs fe runs 0 none none with ⟨so, eo⟩
  rw [haux] at h
  cases so with
  | none => simp at h
  | some a =>
    cases eo with
    | none => simp at h
    | some b =>
      simp only [] at h
      by_cases hab : a < b
      · rw [if_pos hab] at h
        injection h with h1
        injection h1 with h2 h3
        omega
      · rw [if_neg hab] at h
        simp at h

theorem translateSpan_none_iff (runs : List TextRun) (fs fe : Nat) :
    translateSpan runs fs fe = none ↔
      (translateAux fs fe runs 0 none none).1 = none ∨
      (translateAux fs fe runs 0 none none).2 = none ∨
      (∃ s e, translateAux fs fe runs 0 none none = (some s, some e) ∧ e ≤ s) := by
  rcases haux : translateAux fs fe runs 0 none none with ⟨so, eo⟩
  cases so <;> cases eo <;> simp [translateSpan, haux]
  case some.some a b =>
    constructor
    · intro hba
      exact ⟨a, b, ⟨rfl, rfl⟩, hba⟩
    · rintro ⟨s, e, ⟨h1, h2⟩, hle⟩
      omega

theorem classify_eq_iff (o c : List Char) :
    (classify o c = ActionType.Replacement ↔ o ≠ [] ∧ c ≠ []) ∧
    (classify o c = ActionType.Deletion ↔ o ≠ [] ∧ c = []) ∧
    (classify o c = ActionType.Insertion ↔ o = [] ∧ c ≠ []) ∧
    (classify o c = ActionType.Malformed ↔ o = [] ∧ c = []) := by
  unfold classify
  by_cases ho : o = [] <;> by_cases hc : c = [] <;> simp [ho, hc]

theorem processEdit_malformed (searchable : List Char) (runs : List TextRun) (i : Nat) (edit : Edit)
    (hcl : classify (trimChars edit.original) (trimChars edit.corrected) = ActionType.Malformed) :
    processEdit searchable runs i edit = ([], [], 0) := by
  simp only [processEdit]
  rw [hcl]

theorem processEdit_nomatch (searchable : List Char) (runs : List TextRun) (i : Nat) (edit : Edit)
    (a : ActionType)
    (hcl : classify (trimChars edit.original) (trimChars edit.corrected) = a)
    (hma : a ≠ ActionType.Malformed)
    (hf : strFind (searchTermOf a (trimChars edit.original) (trimChars edit.corrected)) searchable = none) :
    processEdit searchable runs i edit = ([], [edit], 0) := by
  cases a with
  | Malformed => exact absurd rfl hma
  | Replacement =>
    simp only [processEdit]
    rw [hcl]
    simp only [searchTermOf] at hf ⊢
    rw [hf]
  | Deletion =>
    simp only [processEdit]
    rw [hcl]
    simp only [searchTermOf] at hf ⊢
    rw [hf]
  | Insertion =>
    simp only [processEdit]
    rw [hcl]
    simp only [searchTermOf] at hf ⊢
    rw [hf]

theorem processEdit_transfail (searchable : List Char) (runs : List TextRun) (i : Nat) (edit : Edit)
    (a : ActionType) (pos : Nat)
    (hcl : classify (trimChars edit.original) (trimChars edit.corrected) = a)
    (hma : a ≠ ActionType.Malformed)
    (hf : strFind (searchTermOf a (trimChars edit.original) (trimChars edit.corrected)) searchable = some pos)
    (ht : translateSpan runs pos
        (pos + (searchTermOf a (trimChars edit.original) (trimChars edit.corrected)).length) = none) :
    processEdit searchable runs i edit = ([], [edit], 0) := by
  cases a with
  | Malformed => exact absurd rfl hma
  | Replacement =>
    simp only [processEdit]
    rw [hcl]
    simp only [searchTermOf] at hf ht ⊢
    simp only [hf, ht]
  | Deletion =>
    simp only [processEdit]
    rw [hcl]
    simp only [searchTermOf] at hf ht ⊢
    simp only [hf, ht]
  | Insertion =>
    simp only [processEdit]
    rw [hcl]
    simp only [searchTermOf] at hf ht ⊢
    simp only [hf, ht]

theorem processEdit_success (searchable : List Char) (runs : List TextRun) (i : Nat) (edit : Edit)
    (a : ActionType) (pos s e : Nat)
    (hcl : classify (trimChars edit.original) (trimChars edit.corrected) = a)
    (hma : a ≠ ActionType.Malformed)
    (hf : strFind (searchTermOf a (trimChars edit.original) (trimChars edit.corrected)) searchable = some pos)
    (ht : translateSpan runs pos
        (pos + (searchTermOf a (trimChars edit.original) (trimChars edit.corrected)).length) = some (s, e)) :
    processEdit searchable runs i edit =
      (buildRequests a (trimChars edit.corrected) s e (suggestionId i), [], 1) := by
  cases a with
  | Malformed => exact absurd rfl hma
  | Replacement =>
    simp only [processEdit]
    rw [hcl]
    simp only [searchTermOf] at hf ht ⊢
    simp only [hf, ht]
  | Deletion =>
    simp only [processEdit]
    rw [hcl]
    simp only [searchTermOf] at hf ht ⊢
    simp only [hf, ht]
  | Insertion =>
    simp only [processEdit]
    rw [hcl]
    simp only [searchTermOf] at hf ht ⊢
    simp only [hf, ht]

/-- C4: the Offset Translator fails exactly when the start sentinel or the
end sentinel is still unset after the loop or when the translated start is
not below the translated end; every successfully translated native range
satisfies `start < end`; and a translation failure makes the per-edit loop
append the edit to `unmatched_edits` and continue normally (the embedding
is a total function: no exception path exists). -/
theorem C4_translator_failure (runs : List TextRun) (fs fe : Nat)
    (searchable : List Char) (i : Nat) (edit : Edit) :
    (∀ s e, translateSpan runs fs fe = some (s, e) → s < e) ∧
    (translateSpan runs fs fe = none ↔
      (translateAux fs fe runs 0 none none).1 = none ∨
      (translateAux fs fe runs 0 none none).2 = none ∨
      (∃ s e, translateAux fs fe runs 0 none none = (some s, some e) ∧ e ≤ s)) ∧
    (∀ (a : ActionType) (pos : Nat),
      classify (trimChars edit.original) (trimChars edit.corrected) = a →
      a ≠ ActionType.Malformed →
      strFind (searchTermOf a (trimChars edit.original) (trimChars edit.corrected)) searchable = some pos →
      translateSpan runs pos
        (pos + (searchTermOf a (trimChars edit.original) (trimChars edit.corrected)).length) = none →
      processEdit searchable runs i edit = ([], [edit], 0)) :=
  ⟨fun s e h => translateSpan_some_lt runs fs fe s e h,
   translateSpan_none_iff runs fs fe,
   fun a pos hcl hma hf ht => processEdit_transfail searchable runs i edit a pos hcl hma hf ht⟩

/-- C4 witness: the edit `{ab ↦ cd}` matches the text `"ab"` at flat
position 0 but the empty run list locates neither endpoint, so the edit
lands in the unmatched list. -/
theorem C4_translator_failure_witness :
    processEdit ("ab").data [] 0 exEditC4 = ([], [exEditC4], 0) :=
  (C4_translator_failure [] 0 2 ("ab").data 0 exEditC4).2.2 ActionType.Replacement 0
    (by decide) (by decide) (by decide) (by decide)

theorem matchesAt_take : ∀ (n h : List Char), matchesAt n h = true → h.take n.length = n
  | [], _, _ => by simp
  | a :: n, [], hm => by simp [matchesAt] at hm
  | a :: n, b :: h, hm => by
    simp only [matchesAt, Bool.and_eq_true, beq_iff_eq] at hm
    obtain ⟨hab, hrest⟩ := hm
    simp only [List.length_cons, List.take_succ_cons]
    rw [hab, matchesAt_take n h hrest]

theorem strFind_some_matchesAt (n : List Char) : ∀ (hay : List Char) (p : Nat),
    strFind n hay = some p → matchesAt n (hay.drop p) = true := by
  intro hay
  induction hay with
  | nil =>
    intro p hp
    simp only [strFind] at hp
    by_cases hm : matchesAt n [] = true
    · rw [if_pos hm] at hp
      injection hp with h1
      subst h1
      simpa using hm
    · rw [if_neg hm] at hp
      exact Option.noConfusion hp
  | cons b t ih =>
    intro p hp
    simp only [strFind] at hp
    by_cases hm : matchesAt n (b :: t) = true
    · rw [if_pos hm] at hp
      injection hp with h1
      subst h1
      simpa using hm
    · rw [if_neg hm] at hp
      rcases hq : strFind n t with _ | q
      · rw [hq] at hp
        simp at hp
      · rw [hq] at hp
        simp only [Option.map_some'] at hp
        injection hp with h1
        subst h1
        simpa [List.drop_succ_cons] using ih q hq

theorem strFind_some_least (n : List Char) : ∀ (hay : List Char) (p : Nat),
    strFind n hay = some p → ∀ q, q < p → matchesAt n (hay.drop q) = false := by
  intro hay
  induction hay with
  | nil =>
    intro p hp q hq
    simp only [strFind] at hp
    by_cases hm : matchesAt n [] = true
    · rw [if_pos hm] at hp
      injection hp with h1
      omega
    · rw [if_neg hm] at hp
      exact Option.noConfusion hp
  | cons b t ih =>
    intro p hp q hq
    simp only [strFind] at hp
    by_cases hm : matchesAt n (b :: t) = true
    · rw [if_pos hm] at hp
      injection hp with h1
      omega
    · rw [if_neg hm] at hp
      rcases hqq : strFind n t with _ | r
      · rw [hqq] at hp
        simp at hp
      · rw [hqq] at hp
        simp only [Option.map_some'] at hp
        injection hp with h1
        cases q with
        | zero =>
          simp only [List.drop_zero]
          simpa using hm
        | succ k =>
          simp only [List.drop_succ_cons]
          exact ih r hqq k (by omega)

theorem strFind_none_iff (n : List Char) : ∀ (hay : List Char),
    strFind n hay = none ↔ ∀ q, matchesAt n (hay.drop q) = false := by
  intro hay
  induction hay with
  | nil =>
    simp only [strFind]
    by_cases hm : matchesAt n [] = true
    · rw [if_pos hm]
      constructor
      · intro hno
        exact Option.noConfusion hno
      · intro hall
        have h0 := hall 0
        rw [List.drop_nil] at h0
        rw [h0] at hm
        simp at hm
    · rw [if_neg hm]
      simp only [Bool.not_eq_true] at hm
      constructor
      · intro _ q
        rw [List.drop_nil]
        exact hm
      · intro _
        rfl
  | cons b t ih =>
    simp only [strFind]
    by_cases hm : matchesAt n (b :: t) = true
    · rw [if_pos hm]
      constructor
      · intro hno
        exact Option.noConfusion hno
      · intro hall
        have h0 := hall 0
        simp only [List.drop_zero] at h0
        rw [h0] at hm
        simp at hm
    · rw [if_neg hm]
      simp only [Bool.not_eq_true] at hm
      constructor
      · intro hmap q
        have hnone : strFind n t = none := by
          rcases hx : strFind n t with _ | r
          · rfl
          · rw [hx] at hmap
            simp at hmap
        cases q with
        | zero =>
          simpa using hm
        | succ k =>
          simp only [List.drop_succ_cons]
          exact (ih.mp hnone) k
      · intro hall
        have hnone : strFind n t = none := by
          apply ih.mpr
          intro q
          have := hall (q + 1)
          simpa [List.drop_succ_cons] using this
        rw [hnone]
        rfl

/-- C5 counterexample: the claim says the phrase located in the document
is character-for-character the edit's original text.  For the edit
`{original: " cat", corrected: "dog"}` against the text `"a cat"` the code
searches for the *stripped* phrase `"cat"`, finds it at flat position 2,
and the located phrase `"cat"` differs from the raw original `" cat"`:
Python's `.strip()` is whitespace normalization applied to the search
phrase before the search. -/
theorem C5_raw_match_counterexample :
    classify (trimChars exEditC5.original) (trimChars exEditC5.corrected) = ActionType.Replacement ∧
    searchTermOf ActionType.Replacement (trimChars exEditC5.original) (trimChars exEditC5.corrected) =
      ("cat").data ∧
    strFind (trimChars exEditC5.original) ("a cat").data = some 2 ∧
    (("a cat").data.drop 2).take (trimChars exEditC5.original).length = ("cat").data ∧
    (("a cat").data.drop 2).take (trimChars exEditC5.original).length ≠ exEditC5.original := by
  decide

/-- C5 amended: matching applies no normalization beyond the whitespace
trim the code performs on the edit fields before classification: the
search phrase (the trimmed original, or trimmed corrected for an
Insertion) is searched for literally and case-sensitively, so the phrase
located in the flat text is character-for-character that trimmed field. -/
theorem C5_trimmed_exact_match (searchable : List Char) (edit : Edit) (a : ActionType) (pos : Nat)
    (_hcl : classify (trimChars edit.original) (trimChars edit.corrected) = a)
    (_hma : a ≠ ActionType.Malformed)
    (hf : strFind (searchTermOf a (trimChars edit.original) (trimChars edit.corrected)) searchable
      = some pos) :
    (searchable.drop pos).take
        (searchTermOf a (trimChars edit.original) (trimChars edit.corrected)).length =
      searchTermOf a (trimChars edit.original) (trimChars edit.corrected) :=
  matchesAt_take _ _ (strFind_some_matchesAt _ searchable pos hf)

/-- C5 amended witness: the trimmed phrase `"cat"` of the edit
`{" cat" ↦ "dog"}` is located verbatim at position 2 of `"a cat"`. -/
theorem C5_trimmed_exact_match_witness :
    (("a cat").data.drop 2).take
        (searchTermOf ActionType.Replacement (trimChars exEditC5.original)
          (trimChars exEditC5.corrected)).length =
      searchTermOf ActionType.Replacement (trimChars exEditC5.original)
        (trimChars exEditC5.corrected) :=
  C5_trimmed_exact_match ("a cat").data exEditC5 ActionType.Replacement 2
    (by decide) (by decide) (by decide)

/-- C6: for a classified and translated edit the builder emits exactly:
Replacement — one `deleteContentRange` over the translated range followed
by one `insertText` of the trimmed corrected text at the range's start;
Deletion — one `deleteContentRange` and no insert; Insertion — one
`insertText` of the trimmed corrected text at the translated start of the
matched anchor; and nothing else. -/
theorem C6_operation_builder (searchable : List Char) (runs : List TextRun) (i : Nat) (edit : Edit) :
    (∀ pos s e,
      classify (trimChars edit.original) (trimChars edit.corrected) = ActionType.Replacement →
      strFind (trimChars edit.original) searchable = some pos →
      translateSpan runs pos (pos + (trimChars edit.original).length) = some (s, e) →
      processEdit searchable runs i edit =
        ([DocsRequest.deleteContentRange s e (suggestionId i),
          DocsRequest.insertText s (trimChars edit.corrected) (suggestionId i)], [], 1)) ∧
    (∀ pos s e,
      classify (trimChars edit.original) (trimChars edit.corrected) = ActionType.Deletion →
      strFind (trimChars edit.original) searchable = some pos →
      translateSpan runs pos (pos + (trimChars edit.original).length) = some (s, e) →
      processEdit searchable runs i edit =
        ([DocsRequest.deleteContentRange s e (suggestionId i)], [], 1)) ∧
    (∀ pos s e,
      classify (trimChars edit.original) (trimChars edit.corrected) = ActionType.Insertion →
      strFind (trimChars edit.corrected) searchable = some pos →
      translateSpan runs pos (pos + (trimChars edit.corrected).length) = some (s, e) →
      processEdit searchable runs i edit =
        ([DocsRequest.insertText s (trimChars edit.corrected) (suggestionId i)], [], 1)) := by
  refine ⟨?_, ?_, ?_⟩
  · intro pos s e hcl hf ht
    have hc : trimChars edit.corrected ≠ [] := ((classify_eq_iff _ _).1.mp hcl).2
    have hce : (trimChars edit.corrected).isEmpty = false := by
      rcases hcc : trimChars edit.corrected with _ | ⟨x, xs⟩
      · exact absurd hcc hc
      · rfl
    have h := processEdit_success searchable runs i edit ActionType.Replacement pos s e hcl
      (by decide) hf ht
    rw [h]
    simp [buildRequests, hce]
  · intro pos s e hcl hf ht
    have hc0 : trimChars edit.corrected = [] := ((classify_eq_iff _ _).2.1.mp hcl).2
    have h := processEdit_success searchable runs i edit ActionType.Deletion pos s e hcl
      (by decide) hf ht
    rw [h]
    simp [buildRequests, hc0]
  · intro pos s e hcl hf ht
    have h := processEdit_success searchable runs i edit ActionType.Insertion pos s e hcl
      (by decide) hf ht
    rw [h]
    simp [buildRequests]

/-- C6 witness: spec property P7 on `"The qwik fox"` (native indices
shifted by one), plus a deletion and an insertion instance. -/
theorem C6_operation_builder_witness :
    processEdit ("The qwik fox").data exRunsC6 0 exEditC6 =
      ([DocsRequest.deleteContentRange 5 9 (suggestionId 0),
        DocsRequest.insertText 5 (trimChars exEditC6.corrected) (suggestionId 0)], [], 1) ∧
    processEdit ("The qwik fox").data exRunsC6 0 exEditC6del =
      ([DocsRequest.deleteContentRange 5 13 (suggestionId 0)], [], 1) ∧
    processEdit ("The qwik fox").data exRunsC6 0 exEditC6ins =
      ([DocsRequest.insertText 10 (trimChars exEditC6ins.corrected) (suggestionId 0)], [], 1) :=
  ⟨(C6_operation_builder ("The qwik fox").data exRunsC6 0 exEditC6).1 4 5 9
      (by decide) (by decide) (by decide),
   (C6_operation_builder ("The qwik fox").data exRunsC6 0 exEditC6del).2.1 4 5 13
      (by decide) (by decide) (by decide),
   (C6_operation_builder ("The qwik fox").data exRunsC6 0 exEditC6ins).2.2 9 10 13
      (by decide) (by decide) (by decide)⟩

/-- C7: classification is a total function of the non-emptiness of the
trimmed fields — Replacement iff both non-empty, Deletion iff only the
original, Insertion iff only the corrected, Malformed iff both empty (the
four cases are exclusive and exhaustive) — and a Malformed edit is dropped
before any match search: its per-edit result is empty (no request, not
unmatched, not counted). -/
theorem C7_classifier_total (searchable : List Char) (runs : List TextRun) (i : Nat) (edit : Edit) :
    (classify (trimChars edit.original) (trimChars edit.corrected) = ActionType.Replacement ↔
      trimChars edit.original ≠ [] ∧ trimChars edit.corrected ≠ []) ∧
    (classify (trimChars edit.original) (trimChars edit.corrected) = ActionType.Deletion ↔
      trimChars edit.original ≠ [] ∧ trimChars edit.corrected = []) ∧
    (classify (trimChars edit.original) (trimChars edit.corrected) = ActionType.Insertion ↔
      trimChars edit.original = [] ∧ trimChars edit.corrected ≠ []) ∧
    (classify (trimChars edit.original) (trimChars edit.corrected) = ActionType.Malformed ↔
      trimChars edit.original = [] ∧ trimChars edit.corrected = []) ∧
    (classify (trimChars edit.original) (trimChars edit.corrected) = ActionType.Malformed →
      processEdit searchable runs i edit = ([], [], 0)) :=
  ⟨(classify_eq_iff _ _).1, (classify_eq_iff _ _).2.1, (classify_eq_iff _ _).2.2.1,
   (classify_eq_iff _ _).2.2.2, fun h => processEdit_malformed searchable runs i edit h⟩

/-- C7 witness: the edit with whitespace-only original and empty corrected
is Malformed and skipped. -/
theorem C7_classifier_total_witness :
    processEdit ("ab").data [] 0 exEditC7 = ([], [], 0) :=
  (C7_classifier_total ("ab").data [] 0 exEditC7).2.2.2.2 (by decide)

/-- C8: the phrase search is literal (character-by-character comparison of
the escaped phrase, embedded by `matchesAt`/`strFind`) and selects exactly
the leftmost occurrence — any position strictly before the reported one
does not match; absence of any occurrence is reported as `none`, in which
case the per-edit loop files the edit as unmatched and returns normally
instead of raising. -/
theorem C8_leftmost_literal_match (searchable term : List Char) (runs : List TextRun)
    (i : Nat) (edit : Edit) :
    (∀ pos, strFind term searchable = some pos →
      matchesAt term (searchable.drop pos) = true ∧
      ∀ q, q < pos → matchesAt term (searchable.drop q) = false) ∧
    (strFind term searchable = none ↔ ∀ q, matchesAt term (searchable.drop q) = false) ∧
    (∀ a : ActionType,
      classify (trimChars edit.original) (trimChars edit.corrected) = a →
      a ≠ ActionType.Malformed →
      strFind (searchTermOf a (trimChars edit.original) (trimChars edit.corrected)) searchable
        = none →
      processEdit searchable runs i edit = ([], [edit], 0)) :=
  ⟨fun pos h =>
      ⟨strFind_some_matchesAt term searchable pos h, strFind_some_least term searchable pos h⟩,
   strFind_none_iff term searchable,
   fun a hcl hma hf => processEdit_nomatch searchable runs i edit a hcl hma hf⟩

/-- C8 witness: `"abc"` occurs twice in `"xabcabc"` and only the leftmost
occurrence (position 1) is reported; the edit `{zz ↦ ww}` has no match in
`"ab"` and becomes unmatched. -/
theorem C8_leftmost_literal_match_witness :
    (matchesAt ("abc").data (("xabcabc").data.drop 1) = true ∧
      ∀ q, q < 1 → matchesAt ("abc").data (("xabcabc").data.drop q) = false) ∧
    processEdit ("ab").data [] 0 exEditC8 = ([], [exEditC8], 0) :=
  ⟨(C8_leftmost_literal_match ("xabcabc").data ("abc").data [] 0 exEditC8).1 1 (by decide),
   (C8_leftmost_literal_match ("ab").data ("zz").data [] 0 exEditC8).2.2 ActionType.Replacement
      (by decide) (by decide) (by decide)⟩

/-- C9 counterexample: the claim's three cases go by the raw operation
string, so an edit with operation `"Remove"` falls into its "otherwise"
branch, which would make the output corrected field the trimmed input
`"x"`.  The code lowercases the operation first (`.lower()`), so
`"Remove"` is treated as `"remove"` and the corrected field is forced to
the empty string. -/
theorem C9_convert_counterexample :
    convert_to_docs_format [exProofEditCap] =
      [{ original := ("y").data, corrected := [], reason := "r" }] ∧
    trimChars ((exProofEditCap.corrected).getD "").data = ("x").data ∧
    ("x").data ≠ ([] : List Char) := by
  decide

/-- C9 amended: `convert_to_docs_format` maps each input edit to one
output record with exactly the fields `original`, `corrected`, `reason`
(the `DocsEdit` shape), preserving length; writing `op` for the
*lowercased* operation value (defaulting to `"replace"` when the key is
missing): if `op = "remove"` the corrected field is forced empty, if
`op = "add"` the original field is forced empty, and otherwise both
fields are the whitespace-trimmed input fields; the reason field defaults
to `"Stylistic correction"`. -/
theorem C9_convert_shape (edits : List ProofEdit) (e : ProofEdit) :
    (convert_to_docs_format edits).length = edits.length ∧
    convert_to_docs_format edits = edits.map convertOne ∧
    (strLower (e.operation.getD "replace") = "remove" →
      (convertOne e).original = trimChars (e.original.getD "").data ∧
      (convertOne e).corrected = []) ∧
    (strLower (e.operation.getD "replace") = "add" →
      (convertOne e).original = [] ∧
      (convertOne e).corrected = trimChars (e.corrected.getD "").data) ∧
    (strLower (e.operation.getD "replace") ≠ "remove" →
      strLower (e.operation.getD "replace") ≠ "add" →
      (convertOne e).original = trimChars (e.original.getD "").data ∧
      (convertOne e).corrected = trimChars (e.corrected.getD "").data) ∧
    (convertOne e).reason = e.reason.getD "Stylistic correction" := by
  refine ⟨by simp [convert_to_docs_format], rfl, ?_, ?_, ?_, ?_⟩
  · intro h
    simp [convertOne, h]
  · intro h
    have hr : strLower (e.operation.getD "replace") ≠ "remove" := by
      rw [h]
      decide
    simp [convertOne, hr, h]
  · intro h1 h2
    simp [convertOne, h1, h2]
  · by_cases h1 : strLower (e.operation.getD "replace") = "remove"
    · simp [convertOne, h1]
    · by_cases h2 : strLower (e.operation.getD "replace") = "add"
      · have hr : strLower (e.operation.getD "replace") ≠ "remove" := by
          rw [h2]
          decide
        simp [convertOne, hr, h2]
      · simp [convertOne, h1, h2]

/-- C9 amended witness: operation `"remove"` with corrected `"b"` yields
trimmed original `"a"` and empty corrected. -/
theorem C9_convert_shape_witness :
    (convertOne exProofEditRm).original = trimChars ((exProofEditRm.original).getD "").data ∧
    (convertOne exProofEditRm).corrected = [] :=
  (C9_convert_shape [exProofEditRm] exProofEditRm).2.2.1 (by decide)

theorem dMatchAt_succ_cons (x : Char) (t : List Char) (i : Nat) :
    dMatchAt (x :: t) (i + 1) = dMatchAt t i := by
  simp [dMatchAt, List.drop_succ_cons]

theorem dMatchAt_zero (s : List Char) : dMatchAt s 0 = dHeadMatch s := by
  simp [dMatchAt]

theorem dHeadMatch_takeWhile (s : List Char) (h : dHeadMatch s = true) :
    (s.drop 3).takeWhile docIdChar ≠ [] := by
  rcases s with _ | ⟨a, _ | ⟨b, _ | ⟨c, _ | ⟨d, rest⟩⟩⟩⟩
  · simp [dHeadMatch] at h
  · simp [dHeadMatch] at h
  · simp [dHeadMatch] at h
  · simp [dHeadMatch] at h
  · simp only [dHeadMatch, Bool.and_eq_true] at h
    obtain ⟨⟨⟨ha, hb⟩, hc⟩, hd⟩ := h
    simp [List.takeWhile_cons, hd]

/-- C10: `get_doc_id` returns `none` exactly when no position of the
input matches `/d/` followed by at least one character of
`[a-zA-Z0-9-_]`; otherwise it returns the maximal (takeWhile) run of class
characters immediately after the leftmost such `/d/`, and the result is
never the empty string. -/
theorem C10_doc_id_extraction (s : List Char) :
    (get_doc_id s = none ↔ ∀ i, dMatchAt s i = false) ∧
    (∀ r, get_doc_id s = some r →
      r ≠ [] ∧ ∃ i, dMatchAt s i = true ∧ (∀ j, j < i → dMatchAt s j = false) ∧
        r = (s.drop (i + 3)).takeWhile docIdChar) := by
  induction s with
  | nil =>
    constructor
    · constructor
      · intro _ i
        simp [dMatchAt, dHeadMatch]
      · intro _
        rfl
    · intro r h
      exact Option.noConfusion h
  | cons x t ih =>
    by_cases hm : dMatchAt (x :: t) 0 = true
    · constructor
      · constructor
        · intro h
          simp only [get_doc_id] at h
          rw [if_pos hm] at h
          exact Option.noConfusion h
        · intro hall
          have h0 := hall 0
          rw [hm] at h0
          exact Bool.noConfusion h0
      · intro r h
        simp only [get_doc_id] at h
        rw [if_pos hm] at h
        injection h with h1
        subst h1
        refine ⟨?_, 0, hm, by omega, by simp⟩
        rw [dMatchAt_zero] at hm
        exact dHeadMatch_takeWhile (x :: t) hm
    · have hm0 : dMatchAt (x :: t) 0 = false := by
        simpa using hm
      constructor
      · constructor
        · intro h i
          simp only [get_doc_id] at h
          rw [if_neg hm] at h
          cases i with
          | zero => exact hm0
          | succ k =>
            rw [dMatchAt_succ_cons]
            exact (ih.1.mp h) k
        · intro hall
          simp only [get_doc_id]
          rw [if_neg hm]
          apply ih.1.mpr
          intro i
          have := hall (i + 1)
          rwa [dMatchAt_succ_cons] at this
      · intro r h
        simp only [get_doc_id] at h
        rw [if_neg hm] at h
        obtain ⟨hr, i, h1, h2, h3⟩ := ih.2 r h
        refine ⟨hr, i + 1, by rwa [dMatchAt_succ_cons], ?_, ?_⟩
        · intro j hj
          cases j with
          | zero => exact hm0
          | succ k =>
            rw [dMatchAt_succ_cons]
            exact h2 k (by omega)
        · have harith : i + 1 + 3 = (i + 3) + 1 := by omega
          rw [harith, List.drop_succ_cons]
          exact h3

/-- C10 witness: `get_doc_id "a/d/xyz_1-2/edit"` extracts the non-empty
id `"xyz_1-2"`, the maximal class run after the first matching `/d/`. -/
theorem C10_doc_id_extraction_witness :
    ("xyz_1-2").data ≠ ([] : List Char) ∧
    ∃ i, dMatchAt exUrl i = true ∧ (∀ j, j < i → dMatchAt exUrl j = false) ∧
      ("xyz_1-2").data = (exUrl.drop (i + 3)).takeWhile docIdChar :=
  (C10_doc_id_extraction exUrl).2 ("xyz_1-2").data (by decide)
